import Mathlib

/-!
Verification of the three-stage document-intelligence pipeline
(section segmentation, relevance ranking, sentence refinement)
against its natural-language specification.

The Python source (`src/main.py`, class `DocumentIntelligenceSystem`) is
shallowly embedded below.  Texts are `List Char` (Python `str`), scores are
`Rat` (Python floats idealized as exact rationals: every score is a finite
sum of the literals 0.1, 0.05, 0.2, 1/(i+1) plus an externally supplied
base similarity), and the two external collaborators (pdfplumber and the
scikit-learn vectorizer) are out of scope: the vectorizer appears as an
explicit function parameter producing either similarity scores or a
failure (`Option`), exactly at the interface boundary drawn by the spec.
-/

namespace DocIntel

/-! ### Python string primitives -/

/-- Python regex class `\s` restricted to its ASCII members (the texts the
pipeline handles are ASCII; the unicode extras change nothing below). -/
def pySpace (c : Char) : Bool :=
  c == ' ' || c == '\t' || c == '\n' || c == '\r' || c == '\x0b' || c == '\x0c'

/-- Python `str.lower`, per character (ASCII range, as in `Char.toLower`). -/
def lowerL (l : List Char) : List Char := l.map Char.toLower

/-- Case-sensitive list prefix test. -/
def startsWithL : List Char → List Char → Bool
  | [], _ => true
  | _ :: _, [] => false
  | c :: w, d :: s => (c == d) && startsWithL w s

/-- Python substring containment `w in s` (contiguous). -/
def isSubstr (w : List Char) : List Char → Bool
  | [] => startsWithL w []
  | d :: s => startsWithL w (d :: s) || isSubstr w s

/-- Python `sep.join(ws)`. -/
def joinWith (sep : List Char) : List (List Char) → List Char
  | [] => []
  | [w] => w
  | w :: ws => w ++ sep ++ joinWith sep ws

/-- Drop trailing whitespace (the right half of Python `str.strip`). -/
def dropTrailingWs (l : List Char) : List Char :=
  (l.reverse.dropWhile pySpace).reverse

/-- Python `str.strip()`: remove leading and trailing whitespace. -/
def pyStrip (l : List Char) : List Char :=
  dropTrailingWs (l.dropWhile pySpace)

/-- Replace every maximal whitespace run by a single space: the loop body of
`re.sub(r'\s+', ' ', text)`.  The flag records whether the previous
character was part of a whitespace run already replaced. -/
def collapseWsAux : Bool → List Char → List Char
  | _, [] => []
  | prevSp, c :: cs =>
    if pySpace c then
      if prevSp then collapseWsAux true cs else ' ' :: collapseWsAux true cs
    else c :: collapseWsAux false cs

/-- Line 46 of the source: `text = re.sub(r'\s+', ' ', text).strip()`. -/
def normalizeWs (text : List Char) : List Char :=
  pyStrip (collapseWsAux false text)

/-- Python `text.split('\n\n')` (fixed two-character separator,
non-overlapping, scanned left to right). -/
def splitNNAux : List Char → List Char → List (List Char)
  | acc, [] => [acc.reverse]
  | acc, [c] => [(c :: acc).reverse]
  | acc, c :: d :: rest =>
    if c = '\n' ∧ d = '\n' then acc.reverse :: splitNNAux [] rest
    else splitNNAux (c :: acc) (d :: rest)

def splitOnNlNl (l : List Char) : List (List Char) := splitNNAux [] l

/-- Python slice `t[a:b]` (for `0 ≤ a`, clamped like Python). -/
def listExtract (t : List Char) (a b : Nat) : List Char :=
  (t.drop a).take (b - a)

/-! ### The regex engine used for boundary detection

All four section-heading patterns of `_split_into_sections` consist of the
prefix `(?:^|\n)`, a capturing group, and a tail ending in a literal `\n`,
where every repetition operator is applied to a single-character class and
every alternation is over literal words.  The engine below implements
exactly this fragment with Python backtracking priority: greedy bounded
repetition tries longer counts first, alternation tries branches left to
right, and `re.finditer` scans positions left to right taking the first
(priority-highest) match and resuming after its end. -/

/-- One regex piece: a character class with a greedy counted repetition
`p{lo,hi}` (`hi = none` meaning unbounded), or a case-insensitive literal
alternation (branches in source order; `X?` inside a branch is expanded
into the two literals, longer first, matching greedy priority). -/
inductive Piece where
  | cls (p : Char → Bool) (lo : Nat) (hi : Option Nat)
  | lits (ws : List (List Char))

/-- Length of the maximal run of characters satisfying `p`. -/
def runLen (p : Char → Bool) : List Char → Nat
  | [] => 0
  | c :: cs => if p c then runLen p cs + 1 else 0

/-- Case-insensitive prefix test (re.IGNORECASE literal matching). -/
def startsWithCI : List Char → List Char → Bool
  | [], _ => true
  | _ :: _, [] => false
  | c :: w, d :: s => (Char.toLower c == Char.toLower d) && startsWithCI w s

/-- The consumed lengths a piece can match at the head of `s`, in Python
backtracking priority order. -/
def choices (pc : Piece) (s : List Char) : List Nat :=
  match pc with
  | .cls p lo hi =>
    let m0 := runLen p s
    let m := match hi with | some h => min h m0 | none => m0
    if m < lo then [] else (List.range (m - lo + 1)).map (fun k => m - k)
  | .lits ws => ws.filterMap (fun w => if startsWithCI w s then some w.length else none)

/-- Concatenated map (kept local to control the simp set). -/
def catMap (f : α → List β) : List α → List β
  | [] => []
  | x :: xs => f x ++ catMap f xs

/-- All total lengths a piece sequence can consume from the head of `s`,
in backtracking priority order. -/
def matchSeq : List Piece → List Char → List Nat
  | [], _ => [0]
  | pc :: rest, s =>
    catMap (fun k => (matchSeq rest (s.drop k)).map (fun r => k + r)) (choices pc s)

/-- A section-heading pattern: `(?:^|\n)` + `(group)` + tail. -/
structure Pat where
  group : List Piece
  tail : List Piece

/-- All matches of `pat` anchored at offset `i` of `t`, in priority order.
Each entry is (total length, capture offset from `i`, capture length).
`^` matches with `re.MULTILINE` at offset 0 or right after a newline. -/
def matchesAt (pat : Pat) (t : List Char) (i : Nat) : List (Nat × Nat × Nat) :=
  let s := t.drop i
  let pre : List Nat :=
    (if i = 0 ∨ t.get? (i - 1) = some '\n' then [0] else []) ++
      (if s.head? = some '\n' then [1] else [])
  catMap
    (fun pl =>
      catMap
        (fun gl =>
          (matchSeq pat.tail (s.drop (pl + gl))).map (fun tl => (pl + gl + tl, pl, gl)))
        (matchSeq pat.group (s.drop pl)))
    pre

/-- `re.finditer` scan: at each offset take the priority-first match, record
`(match.start(), match.group(1).strip())`, and resume after the match.
The fuel argument bounds the scan (each step advances by at least one). -/
def finditerAux (pat : Pat) (t : List Char) : Nat → Nat → List (Nat × List Char)
  | _, 0 => []
  | i, fuel + 1 =>
    if t.length < i then []
    else
      match (matchesAt pat t i).head? with
      | some r =>
        (i, pyStrip ((t.drop (i + r.2.1)).take r.2.2)) ::
          finditerAux pat t (i + max r.1 1) fuel
      | none => finditerAux pat t (i + 1) fuel

def finditer (pat : Pat) (t : List Char) : List (Nat × List Char) :=
  finditerAux pat t 0 (t.length + 1)

/-! The four patterns of lines 49 to 54, compiled with
`re.IGNORECASE | re.MULTILINE` (so `[A-Z]` also matches lowercase). -/

def isAlphaAZ (c : Char) : Bool := ('A' ≤ c && c ≤ 'Z') || ('a' ≤ c && c ≤ 'z')

def isDigit09 (c : Char) : Bool := '0' ≤ c && c ≤ '9'

def notSentEnd (c : Char) : Bool := !(c == '.' || c == '!' || c == '?')

def isIVX (c : Char) : Bool :=
  c == 'I' || c == 'V' || c == 'X' || c == 'i' || c == 'v' || c == 'x'

def dotOrSpace (c : Char) : Bool := c == '.' || pySpace c

def alphaOrSpace (c : Char) : Bool := isAlphaAZ c || pySpace c

/-- The literal `\n` each pattern requires after its heading. -/
def nlPiece : Piece := .cls (fun c => c == '\n') 1 (some 1)

/-- `(?:^|\n)([A-Z][A-Z\s]{2,50})\n`. -/
def patCaps : Pat :=
  { group := [.cls isAlphaAZ 1 (some 1), .cls alphaOrSpace 2 (some 50)], tail := [nlPiece] }

/-- `(?:^|\n)(\d+\.?\s+[A-Z][^.!?]*)\n`. -/
def patNumbered : Pat :=
  { group :=
      [.cls isDigit09 1 none, .cls (fun c => c == '.') 0 (some 1), .cls pySpace 1 none,
        .cls isAlphaAZ 1 (some 1), .cls notSentEnd 0 none],
    tail := [nlPiece] }

/-- The alternatives of the keyword pattern, with each `X?` expanded into
its two literals in greedy priority order. -/
def keywordAlternatives : List (List Char) :=
  [("Abstract").data, ("Introduction").data, ("Methods").data, ("Method").data,
    ("Results").data, ("Result").data, ("Discussion").data, ("Conclusion").data,
    ("References").data, ("Background").data, ("Related Work").data,
    ("Experiments").data, ("Experiment").data]

/-- `(?:^|\n)(Abstract|Introduction|Methods?|...|Experiments?)[.\s]*\n`. -/
def patKeyword : Pat :=
  { group := [.lits keywordAlternatives], tail := [.cls dotOrSpace 0 none, nlPiece] }

/-- `(?:^|\n)([IVX]+\.\s+[A-Z][^.!?]*)\n`. -/
def patRoman : Pat :=
  { group :=
      [.cls isIVX 1 none, .cls (fun c => c == '.') 1 (some 1), .cls pySpace 1 none,
        .cls isAlphaAZ 1 (some 1), .cls notSentEnd 0 none],
    tail := [nlPiece] }

def sectionPatterns : List Pat := [patCaps, patNumbered, patKeyword, patRoman]

/-! ### Stable sorting

Python `list.sort` is stable.  `sSort le` is insertion sort where `le x y`
means "x may be placed before y"; an element is inserted before the first
entry it is `le`-related to, so among equal keys earlier input elements
stay first.  A stable sort is extensionally unique, hence this function is
the embedding of `list.sort(key=...)` for the corresponding key order. -/

def sInsert (le : α → α → Bool) (x : α) : List α → List α
  | [] => [x]
  | y :: ys => if le x y then x :: y :: ys else y :: sInsert le x ys

def sSort (le : α → α → Bool) : List α → List α
  | [] => []
  | x :: xs => sInsert le x (sSort le xs)

/-- Lines 57 to 64: pool the matches of all four patterns (in pattern
order) and sort the pooled boundaries by character offset (stable). -/
def detectBoundaries (t : List Char) : List (Nat × List Char) :=
  sSort (fun a b => decide (a.1 ≤ b.1)) (catMap (fun pat => finditer pat t) sectionPatterns)

/-! ### Sections and segmentation -/

/-- The section record built by `_split_into_sections` /
`_split_by_paragraphs` (the caller overwrites `document` afterwards). -/
structure Sec where
  document : List Char
  page_number : Nat
  section_title : List Char
  text : List Char
deriving DecidableEq

/-- Lines 101 to 114: fallback split on blank-line separators, keeping
stripped paragraphs longer than 100 characters, at most 5 per page. -/
def splitByParagraphs (t : List Char) (page : Nat) : List Sec :=
  let paragraphs := ((splitOnNlNl t).map pyStrip).filter (fun p => 100 < p.length)
  (paragraphs.take 5).enum.map (fun pr =>
    { document := ("placeholder").data, page_number := page,
      section_title := ("Section ").data ++ (Nat.repr (pr.1 + 1)).data, text := pr.2 })

/-- Lines 74 to 97: walk the boundaries carrying the pending title and
start offset, emitting each stripped span strictly longer than 100
characters, then the final span from the last boundary to end of page. -/
def buildLoop (t : List Char) (page : Nat) :
    List Char → Nat → List (Nat × List Char) → List Sec
  | title, start, [] =>
    let final_text := pyStrip (t.drop start)
    if 100 < final_text.length then
      [{ document := ("placeholder").data, page_number := page,
         section_title := title, text := final_text }]
    else []
  | title, start, (pos, btitle) :: rest =>
    (if start < pos then
        let st := pyStrip (listExtract t start pos)
        if 100 < st.length then
          [{ document := ("placeholder").data, page_number := page,
             section_title := title, text := st }]
        else []
      else []) ++ buildLoop t page btitle pos rest

/-- The boundary walk started as in lines 71 and 72 (title
`Introduction`, start offset 0). -/
def buildFromBoundaries (t : List Char) (page : Nat) (bs : List (Nat × List Char)) : List Sec :=
  buildLoop t page ("Introduction").data 0 bs

/-- Lines 41 to 99: `_split_into_sections`. -/
def splitIntoSections (text : List Char) (page : Nat) : List Sec :=
  let t := normalizeWs text
  let boundaries := detectBoundaries t
  if boundaries.isEmpty then splitByParagraphs t page
  else
    let secs := buildFromBoundaries t page boundaries
    if secs.isEmpty then splitByParagraphs t page else secs

/-! ### Relevance ranking (lines 116 to 195) -/

/-- Caller-supplied persona descriptor. -/
structure Persona where
  role : List Char
  expertise : List Char
  focus_areas : List (List Char)

/-- A section after the ranker has annotated it in place. -/
structure RankedSec where
  document : List Char
  page_number : Nat
  section_title : List Char
  text : List Char
  relevance_score : Rat
  importance_rank : Nat
deriving DecidableEq

/-- The fixed travel keyword list of line 130. -/
def travelQueryKeywords : List (List Char) :=
  [("itinerary").data, ("activities").data, ("attractions").data, ("restaurants").data,
    ("hotels").data, ("transportation").data, ("budget").data, ("schedule").data]

/-- Lines 124 to 134: build the query string.  The gate on line 129 tests
only `persona_role` (twice), never the expertise field. -/
def buildQuery (role expertise : List Char) (focus_areas : List (List Char))
    (job : List Char) : List Char :=
  let expertise2 :=
    if isSubstr ("travel").data (lowerL role) || isSubstr ("planner").data (lowerL role) then
      expertise ++ ' ' :: joinWith [' '] travelQueryKeywords
    else expertise
  (role ++ ' ' :: (expertise2 ++ ' ' :: joinWith [' '] focus_areas)) ++ ' ' :: job

/-- Line 152. -/
def travelBoostTerms : List (List Char) :=
  [("restaurant").data, ("hotel").data, ("attraction").data, ("activity").data,
    ("food").data, ("culture").data, ("history").data, ("city").data,
    ("place").data, ("visit").data, ("trip").data, ("travel").data]

/-- Line 153. -/
def groupBoostTerms : List (List Char) :=
  [("group").data, ("friends").data, ("college").data, ("young").data,
    ("budget").data, ("affordable").data, ("student").data]

/-- Line 174. -/
def titleBoostTerms : List (List Char) :=
  [("restaurant").data, ("hotel").data, ("activity").data, ("attraction").data,
    ("thing to do").data, ("tip").data]

/-- Lines 159 to 175: the additive heuristic boost of one section
(floats idealized as exact rationals). -/
def computeBoost (section_title text : List Char) : Rat :=
  let section_lower := lowerL text
  let travelPart :=
    travelBoostTerms.foldl
      (fun b tm => if isSubstr tm section_lower then b + 1 / 10 else b) 0
  let groupPart :=
    groupBoostTerms.foldl
      (fun b tm => if isSubstr tm section_lower then b + 1 / 20 else b) travelPart
  let title_lower := lowerL section_title
  if titleBoostTerms.any (fun tm => isSubstr tm title_lower) then groupPart + 1 / 5
  else groupPart

/-- Line 177: `final_score = base_score + boost`. -/
def finalScore (base : Rat) (section_title text : List Char) : Rat :=
  base + computeBoost section_title text

/-- Descending comparison on final scores for the stable sort of line 182
(`sections.sort(key=lambda x: x['relevance_score'], reverse=True)`). -/
def scoreGe (a b : RankedSec) : Bool :=
  decide (b.relevance_score ≤ a.relevance_score)

/-- Lines 116 to 195: `rank_sections_by_relevance`.  The scikit-learn
TF-IDF fit and cosine similarity form the external collaborator
`vectorize`, taking the section texts and the query and returning either
one base score per section or `none` (any exception in the try block,
which fires before any section is mutated). -/
def rank_sections_by_relevance (sections : List Sec) (persona : Persona)
    (job_description : List Char)
    (vectorize : List (List Char) → List Char → Option (List Rat)) : List RankedSec :=
  if sections.isEmpty then []
  else
    let query :=
      buildQuery persona.role persona.expertise persona.focus_areas job_description
    match vectorize (sections.map (fun s => s.text)) query with
    | some similarities =>
      let scored :=
        (sections.zip similarities).map (fun p =>
          { document := p.1.document, page_number := p.1.page_number,
            section_title := p.1.section_title, text := p.1.text,
            relevance_score := finalScore p.2 p.1.section_title p.1.text,
            importance_rank := 0 })
      let sorted := sSort scoreGe scored
      let ranked := sorted.enum.map (fun p => { p.2 with importance_rank := p.1 + 1 })
      ranked.take 15
    | none =>
      (sections.enum.map (fun p =>
        { document := p.2.document, page_number := p.2.page_number,
          section_title := p.2.section_title, text := p.2.text,
          relevance_score := 1 / (p.1 + 1 : Rat),
          importance_rank := p.1 + 1 })).take 15

/-! ### Sentence refinement (lines 197 to 233) -/

/-- Python word character (`\w`, ASCII fragment). -/
def wordChar (c : Char) : Bool := isAlphaAZ c || isDigit09 c || c == '_'

mutual
/-- Collect maximal word-character runs: currently inside a run
(accumulated reversed in `acc`). -/
def wordRunsIn (acc : List Char) : List Char → List (List Char)
  | [] => [acc.reverse]
  | c :: r => if wordChar c then wordRunsIn (c :: acc) r else acc.reverse :: wordRunsOut r

/-- Collect maximal word-character runs: currently between runs. -/
def wordRunsOut : List Char → List (List Char)
  | [] => []
  | c :: r => if wordChar c then wordRunsIn [c] r else wordRunsOut r
end

/-- `re.findall(r'\b[a-zA-Z]{4,}\b', job.lower())`: on the lowered text a
match is exactly a maximal word-character run made only of letters with
length at least 4. -/
def jobTermsList (job : List Char) : List (List Char) :=
  (wordRunsOut (lowerL job)).filter (fun r => r.all isAlphaAZ && 4 ≤ r.length)

/-- Python `set(...)` of the terms; the refiner only counts distinct
members, so a duplicate-free list is a faithful model. -/
def jobTerms (job : List Char) : List (List Char) :=
  (jobTermsList job).foldl (fun acc x => if acc.contains x then acc else acc ++ [x]) []

/-- Sentence terminator class `[.!?]`. -/
def sentEnd (c : Char) : Bool := c == '.' || c == '!' || c == '?'

mutual
/-- `re.split(r'[.!?]+', text)`: inside a segment. -/
def splitPunctIn (acc : List Char) : List Char → List (List Char)
  | [] => [acc.reverse]
  | c :: r => if sentEnd c then acc.reverse :: splitPunctRun r else splitPunctIn (c :: acc) r

/-- `re.split(r'[.!?]+', text)`: inside a terminator run. -/
def splitPunctRun : List Char → List (List Char)
  | [] => [[]]
  | c :: r => if sentEnd c then splitPunctRun r else splitPunctIn [c] r
end

def splitPunct (text : List Char) : List (List Char) := splitPunctIn [] text

/-- Line 205: stripped sentences with trimmed length above 20. -/
def sentencesOf (text : List Char) : List (List Char) :=
  ((splitPunct text).map pyStrip).filter (fun s => 20 < s.length)

/-- Line 211: the number of distinct job terms occurring in the lowered
sentence. -/
def scoreSentence (terms : List (List Char)) (sentence : List Char) : Nat :=
  (terms.filter (fun tm => isSubstr tm (lowerL sentence))).length

/-- Descending comparison on sentence scores (line 215). -/
def sentGe (a b : Nat × List Char) : Bool := decide (b.1 ≤ a.1)

/-- Lines 204 to 219: score, stable-sort descending, take 3, with the
first-2 fallback guard of line 218. -/
def selectSentences (text job : List Char) : List (List Char) :=
  let sentences := sentencesOf text
  let scored := sentences.map (fun s => (scoreSentence (jobTerms job) s, s))
  let sorted := sSort sentGe scored
  let top := (sorted.take 3).map (fun p => p.2)
  if top.isEmpty && !sentences.isEmpty then sentences.take 2 else top

/-- Lines 221 to 223: join with a dot and space, ensure a final dot. -/
def refinedText (text job : List Char) : List Char :=
  let t := joinWith ('.' :: [' ']) (selectSentences text job)
  if t.getLast? = some '.' then t else t ++ ['.']

/-- The record produced per ranked section (lines 225 to 231). -/
structure RefinedSec where
  document : List Char
  page_number : Nat
  section_title : List Char
  refined_text : List Char
  importance_rank : Nat

/-- Lines 197 to 233: `refine_sections`. -/
def refine_sections (sections : List RankedSec) (job : List Char) : List RefinedSec :=
  sections.map (fun s =>
    { document := s.document, page_number := s.page_number,
      section_title := s.section_title, refined_text := refinedText s.text job,
      importance_rank := s.importance_rank })

/-! ### Orchestrator: resolving `job_to_be_done` (lines 246 to 258) -/

/-- The JSON value found under `job_to_be_done`: a plain string or an
object with a `task` string field. -/
inductive JobInput where
  | str (v : List Char)
  | obj (task : List Char)
deriving DecidableEq

/-- Lines 246 to 258: with `challenge_info` present the task field is
unwrapped from the object form; in the old-format branch the raw value is
used as is. -/
def resolveJobDescription (challengeInfoPresent : Bool) (j : JobInput) : JobInput :=
  if challengeInfoPresent then
    match j with
    | .obj t => .str t
    | .str v => .str v
  else j

/-! ### Spec-side definitions (for refinement comparisons only) -/

/-- Modelled from the claim C1 text: walk boundaries in ascending offset
order materializing a section for each span strictly between consecutive
boundaries (previous boundary title, first span titled Introduction) and a
final section to end of page, with no length filtering. -/
def specWalkClaim (t : List Char) (page : Nat) (bs : List (Nat × List Char)) : List Sec :=
  (((0, ("Introduction").data) :: bs).zip (bs.map (fun b => b.1) ++ [t.length])).map
    (fun pr =>
      { document := ("placeholder").data, page_number := page,
        section_title := pr.1.2, text := listExtract t pr.1.1 pr.2 })

/-- The amended claim C1 walk: as `specWalkClaim` but each span is
stripped and emitted only when strictly longer than 100 characters. -/
def specWalkFiltered (t : List Char) (page : Nat) (bs : List (Nat × List Char)) : List Sec :=
  (((0, ("Introduction").data) :: bs).zip (bs.map (fun b => b.1) ++ [t.length])).filterMap
    (fun pr =>
      let sp := pyStrip (listExtract t pr.1.1 pr.2)
      if 100 < sp.length then
        some { document := ("placeholder").data, page_number := page,
               section_title := pr.1.2, text := sp }
      else none)

/-- The claim C7 fallback: score `1/(i+1)` and rank `i+1` in original
input order, truncated to the first 15 entries. -/
def specFallbackRank (sections : List Sec) : List RankedSec :=
  (sections.take 15).enum.map (fun p =>
    { document := p.2.document, page_number := p.2.page_number,
      section_title := p.2.section_title, text := p.2.text,
      relevance_score := 1 / (p.1 + 1 : Rat),
      importance_rank := p.1 + 1 })

/-! ### Helper lemmas: whitespace normalization removes every newline -/

theorem mem_collapseWsAux {c : Char} :
    ∀ (b : Bool) (l : List Char), c ∈ collapseWsAux b l → c = ' ' ∨ pySpace c = false
  | _, [], h => by simp [collapseWsAux] at h
  | b, d :: ds, h => by
    by_cases hd : pySpace d
    · cases b with
      | true =>
        simp only [collapseWsAux, hd, if_pos, if_true] at h
        exact mem_collapseWsAux true ds h
      | false =>
        simp only [collapseWsAux, hd, if_pos, if_true] at h
        rcases List.mem_cons.mp h with h1 | h2
        · exact Or.inl h1
        · exact mem_collapseWsAux true ds h2
    · simp only [collapseWsAux, hd, if_neg, if_false] at h
      rcases List.mem_cons.mp h with h1 | h2
      · subst h1; exact Or.inr (by simpa using hd)
      · exact mem_collapseWsAux false ds h2

theorem mem_pyStrip {c : Char} {l : List Char} (h : c ∈ pyStrip l) : c ∈ l := by
  have h1 : c ∈ (l.dropWhile pySpace).reverse.dropWhile pySpace := by
    simpa [pyStrip, dropTrailingWs] using h
  have h2 : c ∈ (l.dropWhile pySpace).reverse :=
    (List.dropWhile_sublist _).subset h1
  have h3 : c ∈ l.dropWhile pySpace := List.mem_reverse.mp h2
  exact (List.dropWhile_sublist _).subset h3

theorem not_nl_normalizeWs (text : List Char) : '\n' ∉ normalizeWs text := by
  intro h
  have h1 : '\n' ∈ collapseWsAux false text := mem_pyStrip h
  rcases mem_collapseWsAux false text h1 with h2 | h2
  · exact absurd h2 (by decide)
  · exact absurd h2 (by decide)

/-! ### Helper lemmas: every heading pattern needs a literal newline -/

theorem runLen_nl_eq_zero {s : List Char} (h : '\n' ∉ s) :
    runLen (fun c => c == '\n') s = 0 := by
  cases s with
  | nil => rfl
  | cons c cs =>
    have hc : c ≠ '\n' := fun e => h (by simp [e])
    simp [runLen, hc]

theorem choices_nlPiece {s : List Char} (h : '\n' ∉ s) : choices nlPiece s = [] := by
  simp [choices, nlPiece, runLen_nl_eq_zero h]

theorem catMap_eq_nil {f : α → List β} {l : List α} (h : ∀ x ∈ l, f x = []) :
    catMap f l = [] := by
  induction l with
  | nil => rfl
  | cons x xs ih =>
    simp only [catMap, h x (List.mem_cons_self x xs)]
    exact ih (fun y hy => h y (List.mem_cons_of_mem x hy))

theorem not_nl_drop {s : List Char} (k : Nat) (h : '\n' ∉ s) : '\n' ∉ s.drop k :=
  fun m => h (List.drop_subset k s m)

theorem matchSeq_tail_nil :
    ∀ (ps : List Piece) (s : List Char), '\n' ∉ s → matchSeq (ps ++ [nlPiece]) s = []
  | [], s, h => by
    simp [matchSeq, choices_nlPiece h, catMap]
  | pc :: ps, s, h => by
    have hstep : matchSeq ((pc :: ps) ++ [nlPiece]) s =
        catMap (fun k => (matchSeq (ps ++ [nlPiece]) (s.drop k)).map (fun r => k + r))
          (choices pc s) := rfl
    rw [hstep]
    refine catMap_eq_nil (fun k _ => ?_)
    rw [matchSeq_tail_nil ps (s.drop k) (not_nl_drop k h)]
    rfl

theorem matchesAt_nil {pat : Pat} {t : List Char} (ps : List Piece)
    (htail : pat.tail = ps ++ [nlPiece]) (h : '\n' ∉ t) (i : Nat) :
    matchesAt pat t i = [] := by
  unfold matchesAt
  refine catMap_eq_nil (fun pl _ => ?_)
  refine catMap_eq_nil (fun gl _ => ?_)
  rw [htail, matchSeq_tail_nil ps _ (not_nl_drop _ (not_nl_drop i h))]
  rfl

theorem finditerAux_nil {pat : Pat} {t : List Char}
    (h : ∀ i, matchesAt pat t i = []) :
    ∀ (fuel i : Nat), finditerAux pat t i fuel = []
  | 0, _ => rfl
  | fuel + 1, i => by
    simp only [finditerAux, h i, List.head?_nil]
    by_cases hb : t.length < i
    · simp [hb]
    · simp [hb, finditerAux_nil h fuel (i + 1)]

theorem detectBoundaries_eq_nil {t : List Char} (h : '\n' ∉ t) :
    detectBoundaries t = [] := by
  have hfin : ∀ pat ∈ sectionPatterns, finditer pat t = [] := by
    intro pat hpat
    have htail : ∃ ps, pat.tail = ps ++ [nlPiece] := by
      simp only [sectionPatterns, List.mem_cons, List.not_mem_nil, or_false] at hpat
      rcases hpat with h1 | h1 | h1 | h1 <;> subst h1
      · exact ⟨[], rfl⟩
      · exact ⟨[], rfl⟩
      · exact ⟨[Piece.cls dotOrSpace 0 none], rfl⟩
      · exact ⟨[], rfl⟩
    rcases htail with ⟨ps, hps⟩
    exact finditerAux_nil (matchesAt_nil ps hps h) _ _
  unfold detectBoundaries
  rw [catMap_eq_nil hfin]
  rfl

/-! ### Helper lemmas: stripping is idempotent -/

theorem dropWhile_head_not {p : Char → Bool} :
    ∀ (l : List Char) (c : Char), (l.dropWhile p).head? = some c → p c = false
  | [], c, h => by simp [List.dropWhile] at h
  | d :: ds, c, h => by
    by_cases hd : p d
    · simp only [List.dropWhile, hd] at h
      exact dropWhile_head_not ds c (by simpa using h)
    · simp only [List.dropWhile, hd] at h
      simp only [Bool.false_eq_true, if_false, List.head?_cons, Option.some.injEq] at h
      subst h; simpa using hd

theorem dropWhile_eq_self_of_head {p : Char → Bool} {l : List Char}
    (h : ∀ c, l.head? = some c → p c = false) : l.dropWhile p = l := by
  cases l with
  | nil => rfl
  | cons c cs =>
    have := h c (by simp)
    simp [List.dropWhile, this]

theorem getLast?_dropWhile {p : Char → Bool} :
    ∀ (l : List Char), l.dropWhile p = [] ∨ (l.dropWhile p).getLast? = l.getLast?
  | [] => Or.inl rfl
  | c :: rest => by
    by_cases hc : p c
    · simp only [List.dropWhile, hc, if_true]
      cases rest with
      | nil => exact Or.inl rfl
      | cons r rs =>
        rcases getLast?_dropWhile (r :: rs) with h | h
        · exact Or.inl h
        · exact Or.inr (by rw [h, List.getLast?_cons_cons])
    · refine Or.inr ?_
      simp [List.dropWhile, hc]

theorem dropTrailing_eq_self_of_getLast {l : List Char}
    (h : ∀ c, l.getLast? = some c → pySpace c = false) : dropTrailingWs l = l := by
  unfold dropTrailingWs
  rw [dropWhile_eq_self_of_head (fun c hc => h c (by rwa [List.head?_reverse] at hc))]
  exact List.reverse_reverse l

theorem pyStrip_idem (l : List Char) : pyStrip (pyStrip l) = pyStrip l := by
  have hv : pyStrip l = ((l.dropWhile pySpace).reverse.dropWhile pySpace).reverse := rfl
  have step1 : (pyStrip l).dropWhile pySpace = pyStrip l := by
    rcases getLast?_dropWhile (p := pySpace) (l.dropWhile pySpace).reverse with h | h
    · rw [hv, h]; rfl
    · refine dropWhile_eq_self_of_head (fun c hc => ?_)
      rw [hv, List.head?_reverse, h, List.getLast?_reverse] at hc
      exact dropWhile_head_not l c hc
  have step2 : ∀ c, (pyStrip l).getLast? = some c → pySpace c = false := by
    intro c hc
    rw [hv, List.getLast?_reverse] at hc
    exact dropWhile_head_not (l.dropWhile pySpace).reverse c hc
  calc pyStrip (pyStrip l) = dropTrailingWs ((pyStrip l).dropWhile pySpace) := rfl
    _ = dropTrailingWs (pyStrip l) := by rw [step1]
    _ = pyStrip l := dropTrailing_eq_self_of_getLast step2

/-! ### Helper lemmas: splitting a newline-free text -/

theorem splitNNAux_no_nl :
    ∀ (l acc : List Char), '\n' ∉ l → splitNNAux acc l = [acc.reverse ++ l]
  | [], acc, _ => by simp [splitNNAux]
  | [c], acc, _ => by simp [splitNNAux]
  | c :: d :: rest, acc, h => by
    have hc : c ≠ '\n' := fun e => h (by simp [e])
    have h2 : '\n' ∉ d :: rest := fun m => h (List.mem_cons_of_mem c m)
    have ih := splitNNAux_no_nl (d :: rest) (c :: acc) h2
    have hcond : ¬(c = '\n' ∧ d = '\n') := fun hand => hc hand.1
    simp only [splitNNAux, if_neg hcond, ih, List.reverse_cons]
    simp

/-- C2: since normalization replaces every newline by a space and every
boundary pattern requires a literal newline, no boundary ever matches;
segmentation therefore always takes the paragraph fallback, whose
blank-line split cannot fire either, so each page yields at most one
section, titled `Section 1`, holding the entire whitespace-normalized
page text exactly when that text is longer than 100 characters, and
nothing otherwise. -/
theorem splitIntoSections_single_section (text : List Char) (page : Nat) :
    splitIntoSections text page =
      if 100 < (normalizeWs text).length then
        [{ document := ("placeholder").data, page_number := page,
           section_title := ("Section 1").data, text := normalizeWs text }]
      else [] := by
  have hnl := not_nl_normalizeWs text
  have hdb := detectBoundaries_eq_nil hnl
  have hsplit : splitOnNlNl (normalizeWs text) = [normalizeWs text] := by
    simpa [splitOnNlNl] using splitNNAux_no_nl (normalizeWs text) [] hnl
  have hps : pyStrip (normalizeWs text) = normalizeWs text := pyStrip_idem _
  have htitle : ("Section ").data ++ (Nat.repr 1).data = ("Section 1").data := by decide
  simp only [splitIntoSections, hdb, List.isEmpty_nil, if_true]
  simp only [splitByParagraphs, hsplit, List.map_cons, List.map_nil, hps]
  by_cases hlen : 100 < (normalizeWs text).length
  · simp [hlen, List.filter_cons, List.enum]
    decide
  · simp [hlen, List.filter_cons]

/-! ### The boundary walk (claim C1) -/

theorem buildLoop_eq_filterMap (t : List Char) (page : Nat) :
    ∀ (bs : List (Nat × List Char)) (title : List Char) (start : Nat),
      buildLoop t page title start bs =
        (((start, title) :: bs).zip (bs.map (fun b => b.1) ++ [t.length])).filterMap
          (fun pr =>
            let sp := pyStrip (listExtract t pr.1.1 pr.2)
            if 100 < sp.length then
              some { document := ("placeholder").data, page_number := page,
                     section_title := pr.1.2, text := sp }
            else none)
  | [], title, start => by
    have hex : listExtract t start t.length = t.drop start := by
      unfold listExtract
      rw [show t.length - start = (t.drop start).length from (List.length_drop start t).symm]
      exact List.take_length _
    simp only [List.map_nil, List.nil_append, List.zip_cons_cons, List.zip_nil_right,
      List.filterMap_cons, List.filterMap_nil, buildLoop, hex]
    by_cases h : 100 < (pyStrip (t.drop start)).length <;> simp [h]
  | (pos, btitle) :: rest, title, start => by
    have ih := buildLoop_eq_filterMap t page rest btitle pos
    simp only [buildLoop, ih, List.map_cons, List.cons_append, List.zip_cons_cons,
      List.filterMap_cons]
    by_cases hlt : start < pos
    · by_cases hlen : 100 < (pyStrip (listExtract t start pos)).length <;>
        simp [hlt, hlen]
    · have h0 : pos - start = 0 := by omega
      have hempty : listExtract t start pos = [] := by
        unfold listExtract; rw [h0]; rfl
      simp [hlt, hempty, pyStrip, dropTrailingWs]

/-- C1 (amended): the boundary walk materializes, for consecutive
boundary offsets (page start and the captured titles shifted as in the
claim), exactly the stripped spans strictly longer than 100 characters;
spans of 100 characters or fewer are discarded, which the original claim
text omits. -/
theorem buildFromBoundaries_eq_specWalkFiltered (t : List Char) (page : Nat)
    (bs : List (Nat × List Char)) :
    buildFromBoundaries t page bs = specWalkFiltered t page bs :=
  buildLoop_eq_filterMap t page bs ("Introduction").data 0

/-- The concrete page text and boundary list exhibiting the gap between
the walk as claimed and the code: a boundary at offset 5 of a 110
character page leaves a 5 character span that the code discards. -/
def cexText : List Char := List.replicate 110 'a'

def cexBounds : List (Nat × List Char) := [(5, ("H1").data)]

/-- C1 counterexample: at `cexText` with one boundary at offset 5 the
code emits one section (the short Introduction span is dropped by the
length filter) while the claimed walk materializes a section for every
span, so the two disagree. -/
theorem buildFromBoundaries_ne_specWalkClaim :
    buildFromBoundaries cexText 1 cexBounds ≠ specWalkClaim cexText 1 cexBounds := by
  decide

/-! ### Claim C10: minimum section length -/

theorem snd_mem_of_mem_enumFrom {α : Type} :
    ∀ (l : List α) (n : Nat) (p : Nat × α), p ∈ List.enumFrom n l → p.2 ∈ l
  | [], _, _, h => by simp at h
  | x :: xs, n, p, h => by
    rcases List.mem_cons.mp h with h1 | h1
    · subst h1; exact List.mem_cons_self _ _
    · exact List.mem_cons_of_mem _ (snd_mem_of_mem_enumFrom xs (n + 1) p h1)

theorem mem_splitByParagraphs_len {t : List Char} {page : Nat} {sec : Sec}
    (h : sec ∈ splitByParagraphs t page) : 100 < sec.text.length := by
  unfold splitByParagraphs at h
  rcases List.mem_map.mp h with ⟨pr, hpr, hsec⟩
  have h2 : pr.2 ∈ (((splitOnNlNl t).map pyStrip).filter (fun p => 100 < p.length)).take 5 :=
    snd_mem_of_mem_enumFrom _ 0 pr hpr
  have h3 := List.mem_filter.mp (List.take_subset 5 _ h2)
  have h4 : sec.text = pr.2 := by rw [← hsec]
  rw [h4]
  exact of_decide_eq_true h3.2

theorem mem_buildLoop_len {t : List Char} {page : Nat} {sec : Sec} :
    ∀ (bs : List (Nat × List Char)) (title : List Char) (start : Nat),
      sec ∈ buildLoop t page title start bs → 100 < sec.text.length
  | [], title, start, h => by
    simp only [buildLoop] at h
    split at h
    · rcases List.mem_singleton.mp h with h1
      subst h1
      assumption
    · simp at h
  | (pos, btitle) :: rest, title, start, h => by
    simp only [buildLoop] at h
    rcases List.mem_append.mp h with h1 | h1
    · split at h1
      · split at h1
        · rcases List.mem_singleton.mp h1 with h2
          subst h2
          assumption
        · simp at h1
      · simp at h1
    · exact mem_buildLoop_len rest btitle pos h1

/-- C10: every section emitted by segmentation, on the boundary walk as
well as on the paragraph fallback, has text of length at least 100
characters (the code in fact guarantees strictly more than 100, so every
candidate span shorter than 100 characters is discarded). -/
theorem splitIntoSections_text_min_length (text : List Char) (page : Nat) (sec : Sec)
    (h : sec ∈ splitIntoSections text page) : 100 ≤ sec.text.length := by
  simp only [splitIntoSections] at h
  split at h
  · exact Nat.le_of_lt (mem_splitByParagraphs_len h)
  · split at h
    · exact Nat.le_of_lt (mem_splitByParagraphs_len h)
    · exact Nat.le_of_lt (mem_buildLoop_len _ _ _ h)

/-- The single section segmentation produces on `cexText`. -/
def cexSec : Sec :=
  { document := ("placeholder").data, page_number := 1,
    section_title := ("Section 1").data, text := cexText }

set_option maxRecDepth 200000 in
theorem splitIntoSections_cexText_eval : splitIntoSections cexText 1 = [cexSec] := by
  decide

/-- C10 witness: the 110 character page yields a concrete section, and
the theorem applies to it. -/
theorem splitIntoSections_text_min_length_witness :
    cexSec ∈ splitIntoSections cexText 1 ∧ 100 ≤ cexSec.text.length :=
  ⟨by rw [splitIntoSections_cexText_eval]; exact List.mem_singleton_self _,
    splitIntoSections_text_min_length cexText 1 cexSec
      (by rw [splitIntoSections_cexText_eval]; exact List.mem_singleton_self _)⟩

/-! ### Claim C3: the travel keyword gate tests only the role -/

/-- C3 counterexample: a persona whose expertise (but not role) contains
the substring travel.  The claim requires the travel keyword set, whose
first word is itinerary, to be appended to the query; the code builds the
query without it because line 129 tests only the role field. -/
theorem buildQuery_expertise_not_tested :
    isSubstr ("travel").data (lowerL ("travel expert").data) = true ∧
    isSubstr ("itinerary").data
      (buildQuery ("chef").data ("travel expert").data [] ("plan meals").data) = false := by
  decide

/-- C3 (amended): the keyword set is appended exactly when the role field
contains travel or planner case-insensitively; the expertise content is
never tested. -/
theorem buildQuery_role_gate (role expertise : List Char) (focus : List (List Char))
    (job : List Char) :
    ((isSubstr ("travel").data (lowerL role) || isSubstr ("planner").data (lowerL role)) =
        true →
      buildQuery role expertise focus job =
        (role ++ ' ' :: ((expertise ++ ' ' :: joinWith [' '] travelQueryKeywords) ++
          ' ' :: joinWith [' '] focus)) ++ ' ' :: job) ∧
    ((isSubstr ("travel").data (lowerL role) || isSubstr ("planner").data (lowerL role)) =
        false →
      buildQuery role expertise focus job =
        (role ++ ' ' :: (expertise ++ ' ' :: joinWith [' '] focus)) ++ ' ' :: job) := by
  constructor <;> intro h <;> simp [buildQuery, h]

/-- C3 witness: one role that triggers the keyword injection and one that
does not, with the gate conditions evaluated concretely. -/
theorem buildQuery_role_gate_witness :
    buildQuery ("Travel Planner").data ("e").data [] ("j").data =
      ((("Travel Planner").data ++ ' ' :: ((("e").data ++
        ' ' :: joinWith [' '] travelQueryKeywords) ++ ' ' :: joinWith [' '] [])) ++
        ' ' :: ("j").data) ∧
    buildQuery ("chef").data ("travel expert").data [] ("j").data =
      ((("chef").data ++ ' ' :: (("travel expert").data ++ ' ' :: joinWith [' '] [])) ++
        ' ' :: ("j").data) :=
  ⟨(buildQuery_role_gate ("Travel Planner").data ("e").data [] ("j").data).1 (by decide),
    (buildQuery_role_gate ("chef").data ("travel expert").data [] ("j").data).2 (by decide)⟩

/-! ### Claim C4: resolving `job_to_be_done` -/

/-- C4 counterexample: without `challenge_info` the object form of
`job_to_be_done` is used as is (the later pipeline then works on the raw
object), not resolved to its task string as the claim requires. -/
theorem resolveJob_object_unresolved_old_format :
    resolveJobDescription false (JobInput.obj ("plan a trip").data) ≠
      JobInput.str ("plan a trip").data := by
  decide

/-- C4 (amended): with `challenge_info` present both input forms resolve
to the task string; without it a plain string is used as is but an object
is passed through unresolved. -/
theorem resolveJob_characterization (v t : List Char) :
    resolveJobDescription true (JobInput.str v) = JobInput.str v ∧
    resolveJobDescription true (JobInput.obj t) = JobInput.str t ∧
    resolveJobDescription false (JobInput.str v) = JobInput.str v ∧
    resolveJobDescription false (JobInput.obj t) = JobInput.obj t :=
  ⟨rfl, rfl, rfl, rfl⟩

/-! ### Ranking helpers -/

theorem enumFrom_take {α : Type} :
    ∀ (l : List α) (n k : Nat), (List.enumFrom n l).take k = List.enumFrom n (l.take k)
  | [], _, _ => by simp
  | _ :: _, _, 0 => by simp
  | x :: xs, n, k + 1 => by
    simp only [List.enumFrom, List.take_succ_cons, enumFrom_take xs (n + 1) k]

theorem take_map_comm {α β : Type} (f : α → β) :
    ∀ (l : List α) (k : Nat), (l.map f).take k = (l.take k).map f
  | [], _ => by simp
  | _ :: _, 0 => by simp
  | x :: xs, k + 1 => by
    simp only [List.map_cons, List.take_succ_cons, take_map_comm f xs k]

theorem length_enumFrom' {α : Type} :
    ∀ (l : List α) (n : Nat), (List.enumFrom n l).length = l.length
  | [], _ => rfl
  | x :: xs, n => by simp [List.enumFrom, length_enumFrom' xs (n + 1)]

theorem length_sInsert {le : α → α → Bool} (x : α) :
    ∀ (l : List α), (sInsert le x l).length = l.length + 1
  | [] => rfl
  | y :: ys => by
    by_cases h : le x y <;> simp [sInsert, h, length_sInsert x ys]

theorem length_sSort {le : α → α → Bool} :
    ∀ (l : List α), (sSort le l).length = l.length
  | [] => rfl
  | x :: xs => by simp [sSort, length_sInsert, length_sSort xs]

theorem take_range' :
    ∀ (n s k : Nat), (List.range' s n).take k = List.range' s (min k n)
  | 0, _, _ => by simp
  | _ + 1, _, 0 => by simp
  | n + 1, s, k + 1 => by
    rw [show min (k + 1) (n + 1) = min k n + 1 from by omega]
    simp [List.range', List.take_succ_cons, take_range' n (s + 1) k]

theorem ranks_of_enumFrom_map {β : Type} (g : Nat × β → RankedSec)
    (hg : ∀ q, (g q).importance_rank = q.1 + 1) :
    ∀ (l : List β) (n : Nat),
      ((List.enumFrom n l).map g).map (fun r => r.importance_rank) =
        List.range' (n + 1) l.length
  | [], _ => rfl
  | x :: xs, n => by
    simp only [List.enumFrom, List.map_cons, List.length_cons, List.range'_succ, hg]
    exact congrArg (List.cons (n + 1)) (ranks_of_enumFrom_map g hg xs (n + 1))

/-- The two ranking branches share the shape: enumerate, write `i + 1`
into `importance_rank`, truncate to 15.  This lemma computes the length
and the rank projection of that shape. -/
theorem ranks_assign_take {β : Type} (l : List β) (g : Nat × β → RankedSec)
    (hg : ∀ q, (g q).importance_rank = q.1 + 1) :
    ((l.enum.map g).take 15).length = min 15 l.length ∧
      ((l.enum.map g).take 15).map (fun r => r.importance_rank) =
        List.range' 1 (min 15 l.length) := by
  constructor
  · simp only [List.length_take, List.length_map, List.enum, length_enumFrom']
  · simp only [List.enum]
    rw [← take_map_comm, ranks_of_enumFrom_map g hg l 0, take_range']

/-! ### Claim C7: the fallback path on vectorization failure -/

/-- C7: when vectorization fails, ranking recovers (no failure escapes)
and assigns score `1/(i+1)` and rank `i+1` by original input position,
truncated to the first 15 sections. -/
theorem rank_vectorize_failure_fallback (s : List Sec) (p : Persona) (j : List Char)
    (vectorize : List (List Char) → List Char → Option (List Rat))
    (hfail : vectorize (s.map (fun x => x.text))
        (buildQuery p.role p.expertise p.focus_areas j) = none) :
    rank_sections_by_relevance s p j vectorize = specFallbackRank s := by
  cases s with
  | nil => rfl
  | cons a as =>
    simp only [rank_sections_by_relevance, List.isEmpty_cons, Bool.false_eq_true,
      if_false, hfail]
    rw [take_map_comm]
    simp only [specFallbackRank, List.enum]
    rw [enumFrom_take]

def wSecB : Sec :=
  { document := ("doc1").data, page_number := 2, section_title := ("T").data,
    text := ("body text").data }

/-- C7 witness: a concrete one-section list with a failing vectorizer. -/
theorem rank_vectorize_failure_fallback_witness :
    rank_sections_by_relevance [wSecB] ⟨[], [], []⟩ [] (fun _ _ => none) =
      specFallbackRank [wSecB] :=
  rank_vectorize_failure_fallback [wSecB] ⟨[], [], []⟩ [] (fun _ _ => none) rfl

/-! ### Claim C9: rank values are exactly 1..min(15, n) -/

/-- C9: on both the vectorization path (given one base score per section,
as the collaborator interface guarantees) and the failure path, ranking
returns at most 15 sections whose importance ranks are exactly the dense
sequence `1..min(15, n)` with no gaps or repeats. -/
theorem rank_importance_rank_exact (s : List Sec) (p : Persona) (j : List Char)
    (vectorize : List (List Char) → List Char → Option (List Rat))
    (hlen : ∀ sims, vectorize (s.map (fun x => x.text))
        (buildQuery p.role p.expertise p.focus_areas j) = some sims →
        sims.length = s.length) :
    (rank_sections_by_relevance s p j vectorize).length = min 15 s.length ∧
      (rank_sections_by_relevance s p j vectorize).map (fun r => r.importance_rank) =
        List.range' 1 (min 15 s.length) := by
  cases s with
  | nil => exact ⟨rfl, rfl⟩
  | cons a as =>
    simp only [rank_sections_by_relevance, List.isEmpty_cons, Bool.false_eq_true,
      if_false]
    cases hv : vectorize ((a :: as).map (fun x => x.text))
        (buildQuery p.role p.expertise p.focus_areas j) with
    | none =>
      have := ranks_assign_take (a :: as)
        (fun p =>
          { document := p.2.document, page_number := p.2.page_number,
            section_title := p.2.section_title, text := p.2.text,
            relevance_score := 1 / (p.1 + 1 : Rat), importance_rank := p.1 + 1 })
        (fun q => rfl)
      exact this
    | some sims =>
      have hs : sims.length = (a :: as).length := hlen sims hv
      have hsorted :
          (sSort scoreGe (((a :: as).zip sims).map (fun p =>
            { document := p.1.document, page_number := p.1.page_number,
              section_title := p.1.section_title, text := p.1.text,
              relevance_score := finalScore p.2 p.1.section_title p.1.text,
              importance_rank := 0 : RankedSec }))).length = (a :: as).length := by
        rw [length_sSort, List.length_map, List.length_zip, hs, Nat.min_self]
      have := ranks_assign_take
        (sSort scoreGe (((a :: as).zip sims).map (fun p =>
          { document := p.1.document, page_number := p.1.page_number,
            section_title := p.1.section_title, text := p.1.text,
            relevance_score := finalScore p.2 p.1.section_title p.1.text,
            importance_rank := 0 : RankedSec })))
        (fun p => { p.2 with importance_rank := p.1 + 1 })
        (fun q => rfl)
      rw [hsorted] at this
      exact this

/-- C9 witness: a concrete one-section list with a vectorizer returning
one base score (length hypothesis discharged concretely). -/
theorem rank_importance_rank_exact_witness :
    (rank_sections_by_relevance [wSecB] ⟨[], [], []⟩ []
        (fun ts _ => some (ts.map (fun _ => (0 : Rat))))).length = min 15 [wSecB].length ∧
      (rank_sections_by_relevance [wSecB] ⟨[], [], []⟩ []
        (fun ts _ => some (ts.map (fun _ => (0 : Rat))))).map
          (fun r => r.importance_rank) = List.range' 1 (min 15 [wSecB].length) :=
  rank_importance_rank_exact [wSecB] ⟨[], [], []⟩ []
    (fun ts _ => some (ts.map (fun _ => (0 : Rat))))
    (by intro sims h; injection h with h2; rw [← h2]; simp)

/-! ### Claim C8: determinism and stable ties -/

theorem filter_sInsert_eq (x : RankedSec) (v : Rat) :
    ∀ (l : List RankedSec),
      (sInsert scoreGe x l).filter (fun y => decide (y.relevance_score = v)) =
        if x.relevance_score = v then
          x :: l.filter (fun y => decide (y.relevance_score = v))
        else l.filter (fun y => decide (y.relevance_score = v))
  | [] => by
    by_cases h : x.relevance_score = v <;> simp [sInsert, List.filter, h]
  | y :: ys => by
    by_cases hle : scoreGe x y
    · simp only [sInsert, hle, if_true]
      by_cases h : x.relevance_score = v <;> simp [List.filter_cons, h]
    · have hxy : x.relevance_score < y.relevance_score := by
        have h1 : ¬(y.relevance_score ≤ x.relevance_score) := by
          intro hc
          exact hle (by simpa [scoreGe] using hc)
        exact lt_of_not_le h1
      have hins : sInsert scoreGe x (y :: ys) = y :: sInsert scoreGe x ys := by
        simp [sInsert, hle]
      rw [hins]
      by_cases h : x.relevance_score = v
      · have hy : ¬(y.relevance_score = v) := by
          rw [← h]; exact ne_of_gt hxy
        simp [List.filter_cons, hy, filter_sInsert_eq x v ys, h]
      · by_cases hy : y.relevance_score = v <;>
          simp [List.filter_cons, hy, filter_sInsert_eq x v ys, h]

theorem filter_sSort_eq :
    ∀ (l : List RankedSec) (v : Rat),
      (sSort scoreGe l).filter (fun y => decide (y.relevance_score = v)) =
        l.filter (fun y => decide (y.relevance_score = v))
  | [], _ => rfl
  | x :: xs, v => by
    simp only [sSort]
    rw [filter_sInsert_eq x v (sSort scoreGe xs)]
    by_cases h : x.relevance_score = v <;>
      simp [h, filter_sSort_eq xs v, List.filter_cons]

/-- C8: ranking is a pure function of its inputs, so two calls on
identical sections, persona, job, and vectorizer results coincide, and
the sort used inside ranking is stable: for every score value, the
subsequence of sections carrying that score is preserved in input order
(ties keep original order). -/
theorem rank_deterministic_and_stable :
    (∀ (s : List Sec) (p : Persona) (j : List Char)
      (vec : List (List Char) → List Char → Option (List Rat)) s2 p2 j2 vec2,
      s = s2 → p = p2 → j = j2 → vec = vec2 →
      rank_sections_by_relevance s p j vec = rank_sections_by_relevance s2 p2 j2 vec2) ∧
    (∀ (l : List RankedSec) (v : Rat),
      (sSort scoreGe l).filter (fun y => decide (y.relevance_score = v)) =
        l.filter (fun y => decide (y.relevance_score = v))) := by
  constructor
  · intro s p j vec s2 p2 j2 vec2 h1 h2 h3 h4
    subst h1; subst h2; subst h3; subst h4; rfl
  · exact filter_sSort_eq

def wTieA : RankedSec :=
  { document := ("a").data, page_number := 1, section_title := [], text := [],
    relevance_score := 1, importance_rank := 0 }

def wTieB : RankedSec :=
  { document := ("b").data, page_number := 2, section_title := [], text := [],
    relevance_score := 1, importance_rank := 0 }

/-- C8 witness: identical calls agree, and a two-element tie keeps its
original order through the sort. -/
theorem rank_deterministic_and_stable_witness :
    rank_sections_by_relevance [wSecB] ⟨[], [], []⟩ [] (fun _ _ => none) =
      rank_sections_by_relevance [wSecB] ⟨[], [], []⟩ [] (fun _ _ => none) ∧
    (sSort scoreGe [wTieA, wTieB]).filter (fun y => decide (y.relevance_score = 1)) =
      [wTieA, wTieB].filter (fun y => decide (y.relevance_score = 1)) :=
  ⟨rank_deterministic_and_stable.1 [wSecB] ⟨[], [], []⟩ [] (fun _ _ => none)
      [wSecB] ⟨[], [], []⟩ [] (fun _ _ => none) rfl rfl rfl rfl,
    rank_deterministic_and_stable.2 [wTieA, wTieB] 1⟩

/-! ### Claim C6: boost monotonicity -/

theorem startsWithL_refl : ∀ (w : List Char), startsWithL w w = true
  | [] => rfl
  | c :: w' => by simp [startsWithL, startsWithL_refl w']

theorem startsWithL_append_mono {w : List Char} (u : List Char) :
    ∀ (s : List Char), startsWithL w s = true → startsWithL w (s ++ u) = true := by
  induction w with
  | nil => intro s _; rfl
  | cons c w' ih =>
    intro s hs
    cases s with
    | nil => simp [startsWithL] at hs
    | cons d s' =>
      simp only [startsWithL, Bool.and_eq_true] at hs
      simp only [List.cons_append, startsWithL, Bool.and_eq_true]
      exact ⟨hs.1, ih s' hs.2⟩

theorem isSubstr_nil_left : ∀ (s : List Char), isSubstr [] s = true
  | [] => rfl
  | _ :: s => by simp [isSubstr, startsWithL, isSubstr_nil_left s]

theorem isSubstr_append_of {w : List Char} (u : List Char) :
    ∀ (s : List Char), isSubstr w s = true → isSubstr w (s ++ u) = true
  | [], h => by
    cases w with
    | nil => exact isSubstr_nil_left u
    | cons c w' => simp [isSubstr, startsWithL] at h
  | d :: s', h => by
    simp only [isSubstr, Bool.or_eq_true] at h
    simp only [List.cons_append, isSubstr, Bool.or_eq_true]
    rcases h with h | h
    · exact Or.inl (by simpa using startsWithL_append_mono (w := w) u (d :: s') h)
    · exact Or.inr (isSubstr_append_of u s' h)

theorem isSubstr_suffix (w : List Char) :
    ∀ (a : List Char), isSubstr w (a ++ w) = true
  | [] => by
    cases w with
    | nil => rfl
    | cons c w' => simp [isSubstr, startsWithL_refl]
  | d :: a' => by
    simp only [List.cons_append, isSubstr, Bool.or_eq_true]
    exact Or.inr (isSubstr_suffix w a')

theorem foldl_boost_shift (c d : Rat) (p : List Char → Bool) :
    ∀ (terms : List (List Char)) (b : Rat),
      terms.foldl (fun a tm => if p tm then a + c else a) b + d =
        terms.foldl (fun a tm => if p tm then a + c else a) (b + d)
  | [], b => rfl
  | tm :: ts, b => by
    simp only [List.foldl_cons]
    by_cases hp : p tm = true
    · simp only [hp, if_true]
      rw [foldl_boost_shift c d p ts (b + c)]
      congr 1
      ring
    · simp only [Bool.not_eq_true] at hp
      simp only [hp, Bool.false_eq_true, if_false]
      exact foldl_boost_shift c d p ts b

theorem foldl_boost_le (c : Rat) (hc : 0 ≤ c) (p q : List Char → Bool) :
    ∀ (terms : List (List Char)), (∀ tm ∈ terms, p tm = true → q tm = true) →
      ∀ (b b' : Rat), b ≤ b' →
      terms.foldl (fun a tm => if p tm then a + c else a) b ≤
        terms.foldl (fun a tm => if q tm then a + c else a) b'
  | [], _, b, b', hb => hb
  | tm :: ts, hmono, b, b', hb => by
    simp only [List.foldl_cons]
    have hrest := foldl_boost_le c hc p q ts
      (fun x hx => hmono x (List.mem_cons_of_mem _ hx))
    by_cases hp : p tm = true
    · have hq := hmono tm (List.mem_cons_self _ _) hp
      simp only [hp, hq, if_true]
      exact hrest _ _ (by linarith)
    · simp only [Bool.not_eq_true] at hp
      simp only [hp, Bool.false_eq_true, if_false]
      by_cases hq : q tm = true
      · simp only [hq, if_true]
        exact hrest _ _ (by linarith)
      · simp only [Bool.not_eq_true] at hq
        simp only [hq, Bool.false_eq_true, if_false]
        exact hrest _ _ hb

theorem foldl_boost_gain (c : Rat) (hc : 0 ≤ c) (p q : List Char → Bool)
    (tm0 : List Char) :
    ∀ (terms : List (List Char)), (∀ tm ∈ terms, p tm = true → q tm = true) →
      tm0 ∈ terms → p tm0 = false → q tm0 = true →
      ∀ (b b' : Rat), b ≤ b' →
      terms.foldl (fun a tm => if p tm then a + c else a) b + c ≤
        terms.foldl (fun a tm => if q tm then a + c else a) b'
  | [], _, hmem, _, _, _, _, _ => by simp at hmem
  | tm :: ts, hmono, hmem, hp0, hq0, b, b', hb => by
    simp only [List.foldl_cons]
    rcases List.mem_cons.mp hmem with heq | hmem'
    · subst heq
      simp only [hp0, Bool.false_eq_true, if_false, hq0, if_true]
      rw [foldl_boost_shift c c p ts b]
      exact foldl_boost_le c hc p q ts
        (fun x hx => hmono x (List.mem_cons_of_mem _ hx)) _ _ (by linarith)
    · have hmono' := fun x hx => hmono x (List.mem_cons_of_mem _ hx)
      by_cases hp : p tm = true
      · have hq := hmono tm (List.mem_cons_self _ _) hp
        simp only [hp, hq, if_true]
        exact foldl_boost_gain c hc p q tm0 ts hmono' hmem' hp0 hq0 _ _ (by linarith)
      · simp only [Bool.not_eq_true] at hp
        simp only [hp, Bool.false_eq_true, if_false]
        by_cases hq : q tm = true
        · simp only [hq, if_true]
          exact foldl_boost_gain c hc p q tm0 ts hmono' hmem' hp0 hq0 _ _ (by linarith)
        · simp only [Bool.not_eq_true] at hq
          simp only [hq, Bool.false_eq_true, if_false]
          exact foldl_boost_gain c hc p q tm0 ts hmono' hmem' hp0 hq0 _ _ hb

theorem lowerL_travelBoostTerms : ∀ tm ∈ travelBoostTerms, lowerL tm = tm := by decide

/-- C6 (amended): appending one occurrence of a travel boost term that is
not yet present as a substring of the lowered section text raises the
heuristic boost, and hence the final score at a fixed base similarity, by
at least 0.10.  (The base similarity itself is recomputed by the external
vectorizer on the modified corpus, which the heuristic layer does not
control; the score composition `base + boost` is what the code fixes.) -/
theorem finalScore_new_travel_term_gain (base : Rat) (title text tm : List Char)
    (htm : tm ∈ travelBoostTerms) (hnot : isSubstr tm (lowerL text) = false) :
    finalScore base title text + 1 / 10 ≤ finalScore base title (text ++ ' ' :: tm) := by
  have hlow : lowerL (text ++ ' ' :: tm) = (lowerL text ++ [' ']) ++ tm := by
    have h1 : lowerL (text ++ ' ' :: tm) = lowerL text ++ ' ' :: lowerL tm := by
      simp [lowerL, List.map_append, List.map_cons]
    rw [h1, lowerL_travelBoostTerms tm htm]
    simp
  have hmono : ∀ w : List Char,
      isSubstr w (lowerL text) = true → isSubstr w (lowerL (text ++ ' ' :: tm)) = true := by
    intro w hw
    rw [hlow]
    exact isSubstr_append_of tm _ (isSubstr_append_of [' '] _ hw)
  have hq0 : isSubstr tm (lowerL (text ++ ' ' :: tm)) = true := by
    rw [hlow]
    exact isSubstr_suffix tm _
  have htravel :
      travelBoostTerms.foldl
          (fun (b : Rat) w => if isSubstr w (lowerL text) then b + 1 / 10 else b) 0 +
          1 / 10 ≤
        travelBoostTerms.foldl
          (fun (b : Rat) w => if isSubstr w (lowerL (text ++ ' ' :: tm)) then b + 1 / 10
            else b) 0 :=
    foldl_boost_gain (1 / 10) (by norm_num)
      (fun w => isSubstr w (lowerL text))
      (fun w => isSubstr w (lowerL (text ++ ' ' :: tm))) tm travelBoostTerms
      (fun x _ hx => hmono x hx) htm hnot hq0 0 0 le_rfl
  have hgroup :
      groupBoostTerms.foldl
          (fun (b : Rat) w => if isSubstr w (lowerL text) then b + 1 / 20 else b)
          (travelBoostTerms.foldl
            (fun (b : Rat) w => if isSubstr w (lowerL text) then b + 1 / 10 else b) 0) +
          1 / 10 ≤
        groupBoostTerms.foldl
          (fun (b : Rat) w => if isSubstr w (lowerL (text ++ ' ' :: tm)) then b + 1 / 20
            else b)
          (travelBoostTerms.foldl
            (fun (b : Rat) w => if isSubstr w (lowerL (text ++ ' ' :: tm)) then b + 1 / 10
              else b) 0) := by
    rw [foldl_boost_shift]
    exact foldl_boost_le (1 / 20) (by norm_num)
      (fun w => isSubstr w (lowerL text))
      (fun w => isSubstr w (lowerL (text ++ ' ' :: tm))) groupBoostTerms
      (fun x _ hx => hmono x hx) _ _ htravel
  simp only [finalScore, computeBoost]
  by_cases htl : titleBoostTerms.any (fun w => isSubstr w (lowerL title)) = true
  · simp only [htl, if_true]
    linarith
  · simp only [Bool.not_eq_true] at htl
    simp only [htl, Bool.false_eq_true, if_false]
    linarith

/-- C6 witness: appending the absent term travel to the text abc gains at
least 0.10 at fixed base similarity. -/
theorem finalScore_new_travel_term_gain_witness :
    isSubstr ("travel").data (lowerL ("abc").data) = false ∧
    finalScore 0 [] ("abc").data + 1 / 10 ≤
      finalScore 0 [] (("abc").data ++ ' ' :: ("travel").data) :=
  ⟨by decide,
    finalScore_new_travel_term_gain 0 [] ("abc").data ("travel").data (by decide)
      (by decide)⟩

theorem foldl_boost_count (c : Rat) (p : List Char → Bool) :
    ∀ (terms : List (List Char)) (b : Rat),
      terms.foldl (fun a tm => if p tm then a + c else a) b =
        b + (terms.countP p) * c
  | [], b => by simp
  | tm :: ts, b => by
    simp only [List.foldl_cons, List.countP_cons]
    by_cases hp : p tm = true
    · simp only [hp, if_true]
      rw [foldl_boost_count c p ts (b + c)]
      push_cast
      ring
    · simp only [Bool.not_eq_true] at hp
      simp only [hp, Bool.false_eq_true, if_false]
      rw [foldl_boost_count c p ts b]
      simp

/-- The boost as a function of the two distinct-term counts and the title
test, convenient for concrete evaluation. -/
theorem computeBoost_eq_counts (title text : List Char) :
    computeBoost title text =
      (travelBoostTerms.countP (fun tm => isSubstr tm (lowerL text))) * (1 / 10) +
        (groupBoostTerms.countP (fun tm => isSubstr tm (lowerL text))) * (1 / 20) +
        (if titleBoostTerms.any (fun tm => isSubstr tm (lowerL title)) then
          (1 : Rat) / 5 else 0) := by
  simp only [computeBoost]
  rw [foldl_boost_count, foldl_boost_count]
  by_cases htl : titleBoostTerms.any (fun tm => isSubstr tm (lowerL title)) = true
  · simp only [htl, if_true]
    ring
  · simp only [Bool.not_eq_true] at htl
    simp only [htl, Bool.false_eq_true, if_false]
    ring

/-- C6 counterexample: the boost counts distinct present terms, so adding
one more occurrence of travel to a text already containing it leaves the
final score unchanged, not raised by 0.10 as the claim states. -/
theorem finalScore_duplicate_term_no_gain :
    isSubstr ("travel").data (lowerL ("travel").data) = true ∧
    ¬(finalScore 0 [] ("travel").data + 1 / 10 ≤
        finalScore 0 [] (("travel").data ++ ' ' :: ("travel").data)) := by
  have h1 := computeBoost_eq_counts [] ("travel").data
  have h2 := computeBoost_eq_counts [] (("travel").data ++ ' ' :: ("travel").data)
  have hc1 : travelBoostTerms.countP
      (fun tm => isSubstr tm (lowerL ("travel").data)) = 1 := by decide
  have hc2 : groupBoostTerms.countP
      (fun tm => isSubstr tm (lowerL ("travel").data)) = 0 := by decide
  have hc3 : travelBoostTerms.countP
      (fun tm => isSubstr tm (lowerL (("travel").data ++ ' ' :: ("travel").data))) = 1 := by
    decide
  have hc4 : groupBoostTerms.countP
      (fun tm => isSubstr tm (lowerL (("travel").data ++ ' ' :: ("travel").data))) = 0 := by
    decide
  have ht : titleBoostTerms.any (fun tm => isSubstr tm (lowerL ([] : List Char))) = false := by
    decide
  constructor
  · decide
  · simp only [finalScore, h1, h2, hc1, hc2, hc3, hc4, ht, Bool.false_eq_true, if_false]
    norm_num

/-! ### Claim C5: refinement when every sentence scores zero -/

theorem sSort_sentGe_all_zero :
    ∀ (l : List (Nat × List Char)), (∀ x ∈ l, x.1 = 0) → sSort sentGe l = l
  | [], _ => rfl
  | x :: xs, h => by
    have ih := sSort_sentGe_all_zero xs (fun y hy => h y (List.mem_cons_of_mem _ hy))
    simp only [sSort, ih]
    cases xs with
    | nil => rfl
    | cons y ys =>
      have hx : x.1 = 0 := h x (List.mem_cons_self _ _)
      have hy : y.1 = 0 := h y (List.mem_cons_of_mem _ (List.mem_cons_self _ _))
      simp [sInsert, sentGe, hx, hy]

/-- C5 (amended): when every qualifying sentence scores zero against the
job keyword set, the stable descending sort leaves the sentences in
original order and refinement selects the first `min(3, n)` of them; the
explicit first-2 fallback of line 218 is unreachable, because the scored
list is empty exactly when no sentence qualifies. -/
theorem selectSentences_all_zero_take_three (text job : List Char)
    (h : ∀ s ∈ sentencesOf text, scoreSentence (jobTerms job) s = 0) :
    selectSentences text job = (sentencesOf text).take 3 := by
  simp only [selectSentences]
  have hz : ∀ x ∈ (sentencesOf text).map
      (fun s => (scoreSentence (jobTerms job) s, s)), x.1 = 0 := by
    intro x hx
    rcases List.mem_map.mp hx with ⟨s, hs, rfl⟩
    exact h s hs
  rw [sSort_sentGe_all_zero _ hz]
  have hcomp : ∀ (l : List (List Char)),
      l.map ((fun (p : Nat × List Char) => p.2) ∘
        (fun s => (scoreSentence (jobTerms job) s, s))) = l := by
    intro l
    induction l with
    | nil => rfl
    | cons a as ih => simp only [List.map_cons, Function.comp_apply, ih]
  have htop : (((sentencesOf text).map
      (fun s => (scoreSentence (jobTerms job) s, s))).take 3).map (fun p => p.2) =
      (sentencesOf text).take 3 := by
    rw [take_map_comm, List.map_map, hcomp]
  rw [htop]
  cases hs : sentencesOf text with
  | nil => simp
  | cons a rest => simp

def cexRefText : List Char :=
  ("abcdefgh ijklmnop qrstu. bcdefghi jklmnopq rstuv. cdefghij klmnopqr stuvw.").data

def cexJob : List Char := ("go").data

/-- C5 counterexample: a section with three qualifying sentences, all
scoring zero against the job keyword set (the job has no term of length
at least 4).  The code keeps the top 3 of the stable sort, that is the
first three sentences, not the first two the claim requires. -/
theorem selectSentences_zero_scores_three :
    (sentencesOf cexRefText).length = 3 ∧
    ((sentencesOf cexRefText).all
      (fun s => scoreSentence (jobTerms cexJob) s == 0)) = true ∧
    selectSentences cexRefText cexJob ≠ (sentencesOf cexRefText).take 2 := by
  refine ⟨by decide, by decide, by decide⟩

/-- C5 witness: the amended theorem applied at the same concrete input. -/
theorem selectSentences_all_zero_take_three_witness :
    selectSentences cexRefText cexJob = (sentencesOf cexRefText).take 3 :=
  selectSentences_all_zero_take_three cexRefText cexJob (by decide)

end DocIntel
